import Mathlib

/-!
Shallow embedding of the simplemma core (token_sampler.py,
dictionary_factory.py, strategies/lemmatization_strategy.py) and proofs of
the specification claims about it.

Conventions of the embedding:
* Python exceptions are modelled with `Except`.
* Python dicts are modelled as association lists in insertion order
  (Python 3.7+ dicts preserve insertion order).
* The float `capitalized_threshold` is modelled in `ℚ`; at every value the
  claims touch (0 and 0.8) the comparisons below are far from the rounding
  error of binary floats, so the verdicts coincide.
* `collections.Counter(tokens)` iterates in key-insertion order, which for a
  list argument is first-occurrence order; `Counter.most_common(n)` is a
  stable descending sort by count over that order (CPython documents
  `heapq.nlargest` as equivalent to `sorted(..., reverse=True)[:n]`, and both
  are stable), hence it is the unique sort by the total order
  (count descending, first-occurrence position ascending).
-/

namespace Simplemma

/-- Python exception values the embedded code can raise. -/
inductive PyErr where
  | indexError
deriving DecidableEq, Repr

instance {ε α : Type} [DecidableEq ε] [DecidableEq α] :
    DecidableEq (Except ε α) := fun a b =>
  match a, b with
  | Except.error x, Except.error y =>
    if h : x = y then Decidable.isTrue (by rw [h])
    else Decidable.isFalse (by intro hc; cases hc; exact h rfl)
  | Except.error _, Except.ok _ => Decidable.isFalse (by intro hc; cases hc)
  | Except.ok _, Except.error _ => Decidable.isFalse (by intro hc; cases hc)
  | Except.ok x, Except.ok y =>
    if h : x = y then Decidable.isTrue (by rw [h])
    else Decidable.isFalse (by intro hc; cases hc; exact h rfl)

/-- Keys of `collections.Counter(tokens)`: the distinct tokens in
first-occurrence order (Python dicts preserve insertion order). -/
def pyCounterKeys : List String → List String
  | [] => []
  | t :: ts => t :: (pyCounterKeys ts).filter (fun w => w != t)

/-- `token[0].isupper()` on a Python string: indexing raises `IndexError`
on the empty string; otherwise the first character is tested. -/
def pyFirstIsUpper (w : String) : Except PyErr Bool :=
  if w.isEmpty then Except.error PyErr.indexError
  else Except.ok w.front.isUpper

/-- The comprehension `[token for token in counter if token[0].isupper()]`,
evaluated left to right over the Counter keys; the first empty token
encountered raises. -/
def collectUpper : List String → Except PyErr (List String)
  | [] => Except.ok []
  | t :: ts =>
    match pyFirstIsUpper t with
    | Except.error e => Except.error e
    | Except.ok b =>
      match collectUpper ts with
      | Except.error e => Except.error e
      | Except.ok rest => Except.ok (if b then t :: rest else rest)

/-- Steps 1–2 of `MostCommonTokenSampler.sample_tokens`: build the Counter
and, when `capitalized_threshold > 0`, delete the capitalized keys whenever
there are strictly fewer of them than `threshold * len(counter)`.
Returns the surviving Counter keys, still in insertion order
(`del counter[token]` keeps the order of the remaining keys). -/
def pyFilteredKeys (threshold : ℚ) (tokens : List String) :
    Except PyErr (List String) :=
  let keys := pyCounterKeys tokens
  if 0 < threshold then
    match collectUpper keys with
    | Except.error e => Except.error e
    | Except.ok dels =>
      Except.ok (if (dels.length : ℚ) < threshold * (keys.length : ℚ)
        then keys.filter (fun w => !(dels.contains w)) else keys)
  else Except.ok keys

/-- The order realising `Counter.most_common`'s stable descending sort:
count descending, ties broken by first occurrence in the input (which is the
Counter's key-insertion order).  On the distinct Counter keys this is a
total order, so every sorting algorithm produces exactly the list that
CPython's stable descending sort produces. -/
def keyRel (tokens : List String) (a b : String) : Prop :=
  List.count b tokens < List.count a tokens ∨
    (List.count a tokens = List.count b tokens ∧
      List.indexOf a tokens ≤ List.indexOf b tokens)

instance keyRelDecidable (tokens : List String) : DecidableRel (keyRel tokens) :=
  fun a b =>
    inferInstanceAs (Decidable
      (List.count b tokens < List.count a tokens ∨
        (List.count a tokens = List.count b tokens ∧
          List.indexOf a tokens ≤ List.indexOf b tokens)))

/-- `counter.most_common(n)` over the surviving keys `ks`. -/
def mostCommon (tokens : List String) (n : Nat) (ks : List String) :
    List String :=
  (List.insertionSort (keyRel tokens) ks).take n

/-- `MostCommonTokenSampler.sample_tokens` with the given
`capitalized_threshold` and `sample_size`. -/
def sampleTokens (threshold : ℚ) (sampleSize : Nat) (tokens : List String) :
    Except PyErr (List String) :=
  match pyFilteredKeys threshold tokens with
  | Except.error e => Except.error e
  | Except.ok ks => Except.ok (mostCommon tokens sampleSize ks)

/-- `BaseTokenSampler`: holds the injected tokenizer capability
(`Tokenizer.split_text`) and the subclass's `sample_tokens` hook. -/
structure BaseTokenSampler where
  splitText : String → List String
  subSampleTokens : List String → Except PyErr (List String)

/-- `BaseTokenSampler.sample_text`: split with the configured tokenizer,
then delegate to the subclass's `sample_tokens`. -/
def BaseTokenSampler.sampleText (s : BaseTokenSampler) (text : String) :
    Except PyErr (List String) :=
  s.subSampleTokens (s.splitText text)

/-- `MostCommonTokenSampler` (and its subclass
`RelaxedMostCommonTokenSampler`, which only changes the constructor
defaults) as a `BaseTokenSampler`. -/
def mostCommonTokenSampler (tok : String → List String) (sampleSize : Nat)
    (threshold : ℚ) : BaseTokenSampler :=
  ⟨tok, sampleTokens threshold sampleSize⟩

/-! ## dictionary_factory.py -/

/-- An in-memory dictionary: a mapping from surface form to lemma,
modelled as an association list. -/
abbrev Dict := List (String × String)

/-- The possible runtime types of the `langs` argument of
`get_dictionaries`: a string, a tuple of strings, or anything else
(`None`, an int, a list, ...). -/
inductive LangArg where
  | str (s : String)
  | tup (xs : List String)
  | other

/-- `_control_lang`: wrap a single string into a one-element tuple, raise
`TypeError` for any non-string non-tuple value. -/
def controlLang : LangArg → Except Unit (List String)
  | LangArg.str s => Except.ok [s]
  | LangArg.tup xs => Except.ok xs
  | LangArg.other => Except.error ()

/-- A Python sequence value as used in the fast-path comparison: `tuple`
and `list` are distinct runtime types. -/
inductive PySeq where
  | tuple (xs : List String)
  | list (xs : List String)

/-- Python `==` on sequence values: a tuple and a list are never equal,
whatever their elements. -/
def pySeqEq : PySeq → PySeq → Bool
  | PySeq.tuple xs, PySeq.tuple ys => xs == ys
  | PySeq.list xs, PySeq.list ys => xs == ys
  | _, _ => false

/-- Python `sorted` on a sequence of strings (lexicographic by code
point). -/
def sortStr (xs : List String) : List String :=
  xs.mergeSort (fun a b => decide (a ≤ b))

/-- The key sequence of an association list, in insertion order. -/
def keysOf (c : List (String × Dict)) : List String := c.map Prod.fst

/-- Python dict assignment `d[k] = v`: overwrite in place if the key is
present (keeping its position), append otherwise. -/
def dictSet (m : List (String × Dict)) (k : String) (v : Dict) :
    List (String × Dict) :=
  if (keysOf m).contains k then
    m.map (fun p => if p.1 == k then (k, v) else p)
  else m ++ [(k, v)]

/-- The mutable state of one `DictionaryFactory` instance.
`data` is the working set (`self._data`), `cache` the `functools.lru_cache`
store around `_load_dictionary_from_disk` in recency order (head = least
recently used, last = most recently used).  `diskLoads` and
`cacheAccesses` are observation traces: the sequence of underlying loader
(disk) invocations, and the number of calls made to the cached loader
(hits and misses alike). -/
structure FactoryState where
  data : List (String × Dict)
  cache : List (String × Dict)
  diskLoads : List String
  cacheAccesses : Nat
deriving Repr, DecidableEq

/-- The state of a freshly constructed `DictionaryFactory`. -/
def initState : FactoryState := ⟨[], [], [], 0⟩

/-- One call to the `lru_cache`-wrapped loader, with
`maxsize = cacheMax` (`none` models `maxsize=None`, i.e. unbounded).
On a hit the entry moves to most-recently-used position; on a miss the
underlying loader runs and, if the cache is full, the least-recently-used
entry (the head) is evicted; `maxsize=0` caches nothing. -/
def lruGet (cacheMax : Option Nat) (loader : String → Dict)
    (st : FactoryState) (k : String) : Dict × FactoryState :=
  match st.cache.find? (fun p => p.1 == k) with
  | some pr =>
    (pr.2,
      ⟨st.data, st.cache.filter (fun p => p.1 != k) ++ [(k, pr.2)],
        st.diskLoads, st.cacheAccesses + 1⟩)
  | none =>
    let d := loader k
    let c1 :=
      match cacheMax with
      | none => st.cache ++ [(k, d)]
      | some n =>
        if n = 0 then st.cache
        else if st.cache.length = n then st.cache.drop 1 ++ [(k, d)]
        else st.cache ++ [(k, d)]
    (d, ⟨st.data, c1, st.diskLoads ++ [k], st.cacheAccesses + 1⟩)

/-- The load loop of `get_dictionaries`: for each language, skip it when it
is not in the supported-language list (`LANGLIST`, a constant imported from
`constants.py` and kept abstract here as `supported`), otherwise fetch its
dictionary through the cached loader and insert it into the working set.
Logging calls are no-ops in the embedding. -/
def loadLoop (cacheMax : Option Nat) (loader : String → Dict)
    (supported : List String) :
    FactoryState → List String → FactoryState
  | st, [] => st
  | st, l :: ls =>
    if l ∈ supported then
      let p := lruGet cacheMax loader st l
      loadLoop cacheMax loader supported
        ⟨dictSet p.2.data l p.1, p.2.cache, p.2.diskLoads, p.2.cacheAccesses⟩
        ls
    else loadLoop cacheMax loader supported st ls

/-- `DictionaryFactory.get_dictionaries`.  The fast-path test is embedded
exactly as written in the source: `tuple(sorted(self._data.keys())) ==
sorted(langs)` compares a tuple with a list (`sorted` returns a list).
The loop over `[lang for lang in self._data if lang not in langs]` runs on
the just-emptied working set, and the main loop iterates over
`[lang for lang in langs if lang not in self._data]`, also computed against
the empty working set. -/
def getDictionaries (cacheMax : Option Nat) (loader : String → Dict)
    (supported : List String) (st : FactoryState) (arg : LangArg) :
    Except Unit (List (String × Dict) × FactoryState) :=
  match controlLang arg with
  | Except.error e => Except.error e
  | Except.ok langs =>
    if !st.data.isEmpty &&
        pySeqEq (PySeq.tuple (sortStr (keysOf st.data)))
          (PySeq.list (sortStr langs)) then
      Except.ok (st.data, st)
    else
      let st1 : FactoryState := ⟨[], st.cache, st.diskLoads, st.cacheAccesses⟩
      let popped : List (String × Dict) :=
        ((keysOf st1.data).filter (fun l => !langs.contains l)).foldl
          (fun dd kk => dd.filter (fun p => p.1 != kk)) st1.data
      let st2 : FactoryState := ⟨popped, st1.cache, st1.diskLoads, st1.cacheAccesses⟩
      let iterLangs := langs.filter (fun l => !(keysOf st2.data).contains l)
      let fin := loadLoop cacheMax loader supported st2 iterLangs
      Except.ok (fin.data, fin)

/-- A sequence of `get_dictionaries` calls on one factory instance; a
raised `TypeError` leaves the factory state untouched. -/
def runCalls (cacheMax : Option Nat) (loader : String → Dict)
    (supported : List String) :
    FactoryState → List LangArg → FactoryState
  | st, [] => st
  | st, a :: rest =>
    match getDictionaries cacheMax loader supported st a with
    | Except.error _ => runCalls cacheMax loader supported st rest
    | Except.ok pr => runCalls cacheMax loader supported pr.2 rest

/-! ## _load_dictionary_from_disk -/

/-- What deserializing a resource can yield: a `dict` or some other
pickled object. -/
inductive PickleVal where
  | dict (d : Dict)
  | nonDict

/-- The state of one on-disk resource as seen through
`lzma.open` + `pickle.load`: absent, unreadable/corrupt, or a valid
serialized object. -/
inductive FileContent where
  | missing
  | corrupt
  | valid (v : PickleVal)

/-- Errors a load can end in: `FileNotFoundError` from `open`,
`LZMAError`/`UnpicklingError` from decompression/deserialization, and
`AssertionError` from `assert isinstance(pickled_dict, dict)`. -/
inductive LoadError where
  | fileNotFound
  | corruptData
  | assertionFailed
deriving DecidableEq

/-- `_load_dictionary_from_disk`: read the fixed per-language resource,
decompress and deserialize it, assert it is a mapping, return it.  The
package-relative file system is abstracted as `fs`; no error is caught
inside the function. -/
def loadDictionaryFromDisk (fs : String → FileContent) (langcode : String) :
    Except LoadError Dict :=
  let filename := "data/" ++ langcode ++ ".plzma"
  match fs filename with
  | FileContent.missing => Except.error LoadError.fileNotFound
  | FileContent.corrupt => Except.error LoadError.corruptData
  | FileContent.valid (PickleVal.dict d) => Except.ok d
  | FileContent.valid PickleVal.nonDict => Except.error LoadError.assertionFailed

/-! ## Lemmas about the token sampler -/

theorem mem_pyCounterKeys {w : String} : ∀ {ts : List String},
    w ∈ pyCounterKeys ts ↔ w ∈ ts := by
  intro ts
  induction ts with
  | nil => simp [pyCounterKeys]
  | cons t ts ih =>
    simp only [pyCounterKeys, List.mem_cons, List.mem_filter, bne_iff_ne, ih]
    by_cases h : w = t <;> simp [h]

theorem pyCounterKeys_nodup : ∀ (ts : List String), (pyCounterKeys ts).Nodup := by
  intro ts
  induction ts with
  | nil => exact List.nodup_nil
  | cons t ts ih =>
    refine List.nodup_cons.mpr ⟨?_, ih.filter _⟩
    intro hmem
    exact absurd rfl (bne_iff_ne.mp (List.mem_filter.mp hmem).2)

theorem pyCounterKeys_sub {w : String} {ts : List String}
    (h : w ∈ pyCounterKeys ts) : w ∈ ts := mem_pyCounterKeys.mp h

theorem collectUpper_ok : ∀ {l : List String}, (∀ w ∈ l, w ≠ "") →
    collectUpper l = Except.ok (l.filter (fun w => w.front.isUpper)) := by
  intro l
  induction l with
  | nil => intro _; rfl
  | cons t ts ih =>
    intro h
    have ht : t.isEmpty = false := by
      cases hE : t.isEmpty
      · rfl
      · exact absurd ((String.isEmpty_iff t).mp hE) (h t (List.mem_cons_self t ts))
    have hts := ih (fun w hw => h w (List.mem_cons_of_mem t hw))
    simp only [collectUpper, pyFirstIsUpper, ht, Bool.false_eq_true, if_false, hts,
      List.filter_cons]

theorem pyFilteredKeys_ok_sublist {t : ℚ} {tokens ks : List String}
    (h : pyFilteredKeys t tokens = Except.ok ks) :
    ks.Sublist (pyCounterKeys tokens) := by
  unfold pyFilteredKeys at h
  by_cases ht : 0 < t
  · rw [if_pos ht] at h
    cases hc : collectUpper (pyCounterKeys tokens) with
    | error e => rw [hc] at h; cases h
    | ok dels =>
      rw [hc] at h
      cases h
      by_cases hcond :
          ((dels.length : ℚ) < t * ((pyCounterKeys tokens).length : ℚ))
      · rw [if_pos hcond]
        exact List.filter_sublist _
      · rw [if_neg hcond]
  · rw [if_neg ht] at h
    cases h
    exact List.Sublist.refl _

theorem keyRel_trans (tokens : List String) :
    ∀ a b c, keyRel tokens a b → keyRel tokens b c → keyRel tokens a c := by
  intro a b c
  unfold keyRel
  omega

theorem keyRel_total (tokens : List String) :
    ∀ a b, keyRel tokens a b ∨ keyRel tokens b a := by
  intro a b
  unfold keyRel
  omega

/-! ## Claims about the token sampler -/

/-- C2: for every token sequence (of non-empty tokens, so the first-character
test is defined), the distinct tokens beginning with an uppercase character
are removed from the Counter if and only if the threshold is positive and
there are strictly fewer such distinct tokens than `threshold × (number of
distinct tokens)`; tokens not starting with an uppercase character always
survive; with threshold 0 no filtering occurs on any input; and on
`["Apple","apple","apple","Banana","cat"]` with threshold 0.8 and sample
size 10 the sample is `["apple","cat"]`. -/
theorem claim_C2 (t : ℚ) (tokens : List String) (hne : ∀ w ∈ tokens, w ≠ "") :
    (∃ ks, pyFilteredKeys t tokens = Except.ok ks ∧
      (∀ w ∈ pyCounterKeys tokens, w.front.isUpper = true →
        (¬ w ∈ ks ↔ 0 < t ∧
          ((((pyCounterKeys tokens).filter (fun u => u.front.isUpper)).length : ℚ) <
            t * ((pyCounterKeys tokens).length : ℚ)))) ∧
      (∀ w ∈ pyCounterKeys tokens, w.front.isUpper = false → w ∈ ks)) ∧
    (∀ tokens' : List String,
      pyFilteredKeys 0 tokens' = Except.ok (pyCounterKeys tokens')) ∧
    sampleTokens (4/5) 10 (["Apple", "apple", "apple", "Banana", "cat"]) =
      Except.ok (["apple", "cat"]) := by
  refine ⟨?_, ?_, ?_⟩
  · have hku : ∀ w ∈ pyCounterKeys tokens, w ≠ "" :=
      fun w hw => hne w (pyCounterKeys_sub hw)
    have hcu := collectUpper_ok hku
    simp only [pyFilteredKeys]
    by_cases ht : 0 < t
    · rw [if_pos ht, hcu]
      by_cases hcond :
          (((((pyCounterKeys tokens).filter (fun u => u.front.isUpper)).length : ℚ)) <
            t * ((pyCounterKeys tokens).length : ℚ))
      · simp only [if_pos hcond]
        refine ⟨_, rfl, ?_, ?_⟩
        · intro w hw hup
          have hdel : ((pyCounterKeys tokens).filter
              (fun u => u.front.isUpper)).contains w = true :=
            List.elem_iff.mpr (List.mem_filter.mpr ⟨hw, hup⟩)
          simp only [List.mem_filter, hdel, Bool.not_true, Bool.false_eq_true,
            and_false, not_false_eq_true, true_iff]
          exact ⟨ht, hcond⟩
        · intro w hw hup
          have hdel : ¬ w ∈ (pyCounterKeys tokens).filter
              (fun u => u.front.isUpper) := by
            intro hc
            rw [(List.mem_filter.mp hc).2] at hup
            cases hup
          refine List.mem_filter.mpr ⟨hw, ?_⟩
          cases hc : ((pyCounterKeys tokens).filter
              (fun u => u.front.isUpper)).contains w
          · rfl
          · exact absurd (List.elem_iff.mp hc) hdel
      · simp only [if_neg hcond]
        refine ⟨_, rfl, ?_, fun w hw _ => hw⟩
        intro w hw _
        simp only [hw, not_true_eq_false, false_iff, not_and]
        exact fun _ => hcond
    · rw [if_neg ht]
      refine ⟨_, rfl, ?_, fun w hw _ => hw⟩
      intro w hw _
      simp [hw, ht]
  · intro tokens'
    unfold pyFilteredKeys
    rw [if_neg (lt_irrefl (0 : ℚ))]
  · have hck : pyCounterKeys ["Apple", "apple", "apple", "Banana", "cat"] =
        ["Apple", "apple", "Banana", "cat"] := by decide
    simp only [sampleTokens, pyFilteredKeys, hck]
    rw [if_pos (by norm_num : (0:ℚ) < 4/5)]
    have hcu : collectUpper ["Apple", "apple", "Banana", "cat"] =
        Except.ok (["Apple", "Banana"]) := by decide
    simp only [hcu]
    rw [if_pos (by norm_num :
      (((["Apple", "Banana"] : List String).length : ℚ) <
        4/5 * (((["Apple", "apple", "Banana", "cat"] : List String).length : ℚ))))]
    decide

/-- Witness for C2 at the spec's concrete input. -/
theorem claim_C2_witness :
    sampleTokens (4/5) 10 (["Apple", "apple", "apple", "Banana", "cat"]) =
      Except.ok (["apple", "cat"]) :=
  (claim_C2 (4/5) ["Apple", "apple", "apple", "Banana", "cat"] (by decide)).2.2

/-- C3: every list `sample_tokens` returns consists of distinct tokens, has
length at most `sample_size`, and is ordered by strictly descending
frequency, ties broken by the position of the tokens' first occurrence in
the input. -/
theorem claim_C3 (t : ℚ) (n : Nat) (tokens out : List String)
    (h : sampleTokens t n tokens = Except.ok out) :
    out.Nodup ∧ out.length ≤ n ∧
    out.Pairwise (fun a b =>
      List.count b tokens < List.count a tokens ∨
        (List.count a tokens = List.count b tokens ∧
          List.indexOf a tokens < List.indexOf b tokens)) := by
  unfold sampleTokens at h
  cases hk : pyFilteredKeys t tokens with
  | error e => rw [hk] at h; cases h
  | ok ks =>
    rw [hk] at h
    have hout : out = mostCommon tokens n ks := by
      have h' : Except.ok (mostCommon tokens n ks) = Except.ok out := h
      injection h' with h''
      exact h''.symm
    have hsub : ks.Sublist (pyCounterKeys tokens) := pyFilteredKeys_ok_sublist hk
    have hnod : ks.Nodup := hsub.nodup (pyCounterKeys_nodup tokens)
    have hmem : ∀ w ∈ ks, w ∈ tokens :=
      fun w hw => pyCounterKeys_sub (hsub.subset hw)
    have hperm := List.perm_insertionSort (keyRel tokens) ks
    have hsnod : (List.insertionSort (keyRel tokens) ks).Nodup :=
      hperm.nodup_iff.mpr hnod
    have hsorted : (List.insertionSort (keyRel tokens) ks).Pairwise
        (keyRel tokens) := by
      haveI : IsTotal String (keyRel tokens) := ⟨keyRel_total tokens⟩
      haveI : IsTrans String (keyRel tokens) :=
        ⟨fun a b c => keyRel_trans tokens a b c⟩
      exact List.sorted_insertionSort (keyRel tokens) ks
    have hstrict : (List.insertionSort (keyRel tokens) ks).Pairwise
        (fun a b =>
          List.count b tokens < List.count a tokens ∨
            (List.count a tokens = List.count b tokens ∧
              List.indexOf a tokens < List.indexOf b tokens)) := by
      refine (List.Pairwise.and hsorted hsnod).imp_of_mem ?_
      intro a b ha hb hr
      have hat : a ∈ tokens := hmem a (hperm.subset ha)
      have hbt : b ∈ tokens := hmem b (hperm.subset hb)
      rcases hr.1 with hlt | ⟨heq, hle⟩
      · exact Or.inl hlt
      · refine Or.inr ⟨heq, lt_of_le_of_ne hle ?_⟩
        intro hidx
        exact hr.2 ((List.indexOf_inj hat hbt).mp hidx)
    rw [hout]
    exact ⟨List.Nodup.sublist (List.take_sublist n _) hsnod,
      List.length_take_le n _,
      List.Pairwise.sublist (List.take_sublist n _) hstrict⟩

/-- Witness for C3 at a concrete input with a frequency tie
(`Apple`/`Banana`/`cat` all occur once; `Apple` appears first). -/
theorem claim_C3_witness :
    (["apple", "Apple"] : List String).Nodup ∧
    (["apple", "Apple"] : List String).length ≤ 2 ∧
    (["apple", "Apple"] : List String).Pairwise (fun a b =>
      List.count b ["Apple", "apple", "apple", "Banana", "cat"] <
        List.count a ["Apple", "apple", "apple", "Banana", "cat"] ∨
        (List.count a ["Apple", "apple", "apple", "Banana", "cat"] =
          List.count b ["Apple", "apple", "apple", "Banana", "cat"] ∧
          List.indexOf a ["Apple", "apple", "apple", "Banana", "cat"] <
            List.indexOf b ["Apple", "apple", "apple", "Banana", "cat"])) :=
  claim_C3 0 2 ["Apple", "apple", "apple", "Banana", "cat"] ["apple", "Apple"]
    (by decide)

/-- C8: `sample_text` is exactly `sample_tokens` composed with the injected
tokenizer's `split_text`, for every sampler built on `BaseTokenSampler`,
and in particular for every `MostCommonTokenSampler` configuration. -/
theorem claim_C8 :
    (∀ (s : BaseTokenSampler) (text : String),
      s.sampleText text = s.subSampleTokens (s.splitText text)) ∧
    (∀ (tok : String → List String) (n : Nat) (t : ℚ) (text : String),
      (mostCommonTokenSampler tok n t).sampleText text =
        sampleTokens t n (tok text)) :=
  ⟨fun _ _ => rfl, fun _ _ _ _ => rfl⟩

/-- C10: with a positive capitalized-token threshold, an input containing
the empty string makes `sample_tokens` raise `IndexError` (the first
character of every distinct token is inspected); on inputs of non-empty
tokens, or with threshold 0 on any input, the call returns a sample. -/
theorem claim_C10 :
    (∀ t : ℚ, 0 < t → ∀ n : Nat,
      sampleTokens t n (["Hi", ""]) = Except.error PyErr.indexError) ∧
    (∀ (t : ℚ) (n : Nat) (tokens : List String), (∀ w ∈ tokens, w ≠ "") →
      ∃ out, sampleTokens t n tokens = Except.ok out) ∧
    (∀ (n : Nat) (tokens : List String),
      ∃ out, sampleTokens 0 n tokens = Except.ok out) := by
  refine ⟨?_, ?_, ?_⟩
  · intro t ht n
    simp only [sampleTokens, pyFilteredKeys]
    rw [if_pos ht]
    rfl
  · intro t n tokens hne
    simp only [sampleTokens, pyFilteredKeys]
    by_cases ht : 0 < t
    · rw [if_pos ht,
        collectUpper_ok (fun w hw => hne w (pyCounterKeys_sub hw))]
      exact ⟨_, rfl⟩
    · rw [if_neg ht]
      exact ⟨_, rfl⟩
  · intro n tokens
    simp only [sampleTokens, pyFilteredKeys]
    rw [if_neg (lt_irrefl (0 : ℚ))]
    exact ⟨_, rfl⟩

/-- Witness for C10: the error case at threshold 1, and totality on a
non-empty-token input. -/
theorem claim_C10_witness :
    sampleTokens 1 5 (["Hi", ""]) = Except.error PyErr.indexError ∧
    (∃ out, sampleTokens 1 5 (["abc"]) = Except.ok out) :=
  ⟨claim_C10.1 1 zero_lt_one 5, claim_C10.2.1 1 5 ["abc"] (by decide)⟩

/-! ## Lemmas about the dictionary factory -/

@[simp]
theorem pySeqEq_tuple_list (xs ys : List String) :
    pySeqEq (PySeq.tuple xs) (PySeq.list ys) = false := rfl

/-- The effect of a Python dict assignment on the key sequence: keep the
keys unchanged when the key is present, append it otherwise. -/
def pyInsertKey (ks : List String) (l : String) : List String :=
  if l ∈ ks then ks else ks ++ [l]

theorem lruGet_data (cm : Option Nat) (loader : String → Dict)
    (st : FactoryState) (k : String) :
    (lruGet cm loader st k).2.data = st.data := by
  simp only [lruGet]
  cases st.cache.find? (fun p => p.1 == k) <;> rfl

theorem dictSet_keys (m : List (String × Dict)) (k : String) (v : Dict) :
    keysOf (dictSet m k v) = pyInsertKey (keysOf m) k := by
  simp only [dictSet, pyInsertKey]
  by_cases h : k ∈ keysOf m
  · rw [if_pos (List.elem_iff.mpr h), if_pos h]
    simp only [keysOf, List.map_map]
    refine List.map_congr_left ?_
    intro p _
    by_cases hp : p.1 == k
    · simp only [Function.comp_apply, if_pos hp]
      exact (beq_iff_eq.mp hp).symm
    · simp only [Function.comp_apply, if_neg hp]
  · rw [if_neg ?_, if_neg h]
    · simp [keysOf]
    · intro hc
      exact h (List.elem_iff.mp hc)

theorem loadLoop_data_keys (cm : Option Nat) (loader : String → Dict)
    (supported : List String) :
    ∀ (ls : List String) (st : FactoryState),
      keysOf (loadLoop cm loader supported st ls).data =
        ls.foldl (fun ks l => if l ∈ supported then pyInsertKey ks l else ks)
          (keysOf st.data) := by
  intro ls
  induction ls with
  | nil => intro st; rfl
  | cons l ls ih =>
    intro st
    by_cases h : l ∈ supported
    · simp only [loadLoop, if_pos h, List.foldl_cons]
      rw [ih]
      have : keysOf (dictSet (lruGet cm loader st l).2.data l
          (lruGet cm loader st l).1) = pyInsertKey (keysOf st.data) l := by
        rw [dictSet_keys, lruGet_data]
      rw [this]
    · simp only [loadLoop, if_neg h, List.foldl_cons]
      rw [ih]

theorem keysOf_filter_ne (c : List (String × Dict)) (k : String) :
    keysOf (c.filter (fun p => p.1 != k)) =
      (keysOf c).filter (fun s => s != k) := by
  induction c with
  | nil => rfl
  | cons p c ih =>
    cases h : (p.1 != k)
    · simpa [keysOf, List.filter_cons, h] using ih
    · simpa [keysOf, List.filter_cons, h] using ih

theorem find?_key_eq_none {c : List (String × Dict)} {k : String} :
    c.find? (fun p => p.1 == k) = none ↔ ¬ k ∈ keysOf c := by
  rw [List.find?_eq_none]
  constructor
  · intro h hk
    rcases List.mem_map.mp hk with ⟨p, hp, hpk⟩
    exact h p hp (beq_iff_eq.mpr hpk)
  · intro h p hp hbeq
    exact h (List.mem_map.mpr ⟨p, hp, beq_iff_eq.mp hbeq⟩)

theorem lruGet_cache_inv (N : Nat) (loader : String → Dict)
    (st : FactoryState) (k : String)
    (hnd : (keysOf st.cache).Nodup) (hlen : st.cache.length ≤ N) :
    (keysOf (lruGet (some N) loader st k).2.cache).Nodup ∧
      (lruGet (some N) loader st k).2.cache.length ≤ N := by
  simp only [lruGet]
  cases hf : st.cache.find? (fun p => p.1 == k) with
  | some pr =>
    have hkmem : k ∈ keysOf st.cache := by
      by_contra hc
      rw [find?_key_eq_none.mpr hc] at hf
      cases hf
    rcases List.mem_map.mp hkmem with ⟨q, hq, hqk⟩
    have hdropped : (st.cache.filter (fun p => p.1 != k)).length <
        st.cache.length := by
      refine List.length_filter_lt_length_iff_exists.mpr ⟨q, hq, ?_⟩
      simp [hqk]
    constructor
    · simp only [keysOf, List.map_append]
      rw [show List.map Prod.fst (st.cache.filter (fun p => p.1 != k)) =
          (keysOf st.cache).filter (fun s => s != k) from
        keysOf_filter_ne st.cache k]
      refine List.nodup_append.mpr ⟨hnd.filter _, List.nodup_singleton k, ?_⟩
      intro a ha hb
      rw [List.mem_singleton.mp hb] at ha
      exact absurd rfl (bne_iff_ne.mp (List.mem_filter.mp ha).2)
    · simp only [List.length_append, List.length_singleton]
      omega
  | none =>
    have hknot : ¬ k ∈ keysOf st.cache := find?_key_eq_none.mp hf
    by_cases h0 : N = 0
    · simpa only [if_pos h0] using ⟨hnd, hlen⟩
    · simp only [if_neg h0]
      by_cases hfull : st.cache.length = N
      · simp only [if_pos hfull]
        constructor
        · simp only [keysOf, List.map_append, List.map_drop]
          refine List.nodup_append.mpr
            ⟨List.Nodup.sublist (List.drop_sublist 1 _) hnd,
              List.nodup_singleton k, ?_⟩
          intro a ha hb
          rw [List.mem_singleton.mp hb] at ha
          exact hknot ((List.drop_sublist 1 (keysOf st.cache)).subset ha)
        · simp only [List.length_append, List.length_singleton,
            List.length_drop]
          omega
      · simp only [if_neg hfull]
        constructor
        · simp only [keysOf, List.map_append]
          refine List.nodup_append.mpr
            ⟨hnd, List.nodup_singleton k, ?_⟩
          intro a ha hb
          rw [List.mem_singleton.mp hb] at ha
          exact hknot ha
        · simp only [List.length_append, List.length_singleton]
          omega

theorem lruGet_miss_diskLoads (cm : Option Nat) (loader : String → Dict)
    (st : FactoryState) (k : String)
    (hf : st.cache.find? (fun p => p.1 == k) = none) :
    (lruGet cm loader st k).2.diskLoads = st.diskLoads ++ [k] := by
  simp only [lruGet, hf]

theorem loadLoop_cache_inv (N : Nat) (loader : String → Dict)
    (supported : List String) :
    ∀ (ls : List String) (st : FactoryState),
      (keysOf st.cache).Nodup → st.cache.length ≤ N →
      (keysOf (loadLoop (some N) loader supported st ls).cache).Nodup ∧
        (loadLoop (some N) loader supported st ls).cache.length ≤ N := by
  intro ls
  induction ls with
  | nil => exact fun st h1 h2 => ⟨h1, h2⟩
  | cons l ls ih =>
    intro st h1 h2
    by_cases h : l ∈ supported
    · simp only [loadLoop, if_pos h]
      have hstep := lruGet_cache_inv N loader st l h1 h2
      exact ih _ hstep.1 hstep.2
    · simp only [loadLoop, if_neg h]
      exact ih st h1 h2

theorem getDictionaries_str_eq (cm : Option Nat) (loader : String → Dict)
    (supported : List String) (st : FactoryState) (s : String) :
    getDictionaries cm loader supported st (LangArg.str s) =
      getDictionaries cm loader supported st (LangArg.tup [s]) := rfl

theorem getDictionaries_tup_eq (cm : Option Nat) (loader : String → Dict)
    (supported : List String) (st : FactoryState) (langs : List String) :
    getDictionaries cm loader supported st (LangArg.tup langs) =
      Except.ok ((loadLoop cm loader supported
          ⟨[], st.cache, st.diskLoads, st.cacheAccesses⟩ langs).data,
        loadLoop cm loader supported
          ⟨[], st.cache, st.diskLoads, st.cacheAccesses⟩ langs) := by
  simp only [getDictionaries, controlLang, pySeqEq_tuple_list, Bool.and_false,
    Bool.false_eq_true, if_false, keysOf, List.map_nil, List.filter_nil,
    List.foldl_nil, List.elem_nil, Bool.not_false, List.filter_true]

theorem runCalls_cache_inv (N : Nat) (loader : String → Dict)
    (supported : List String) :
    ∀ (args : List LangArg) (st : FactoryState),
      (keysOf st.cache).Nodup → st.cache.length ≤ N →
      (keysOf (runCalls (some N) loader supported st args).cache).Nodup ∧
        (runCalls (some N) loader supported st args).cache.length ≤ N := by
  intro args
  induction args with
  | nil => exact fun st h1 h2 => ⟨h1, h2⟩
  | cons a args ih =>
    intro st h1 h2
    simp only [runCalls]
    cases a with
    | other => exact ih st h1 h2
    | str s =>
      rw [getDictionaries_str_eq, getDictionaries_tup_eq]
      exact ih _
        (loadLoop_cache_inv N loader supported [s]
          ⟨[], st.cache, st.diskLoads, st.cacheAccesses⟩ h1 h2).1
        (loadLoop_cache_inv N loader supported [s]
          ⟨[], st.cache, st.diskLoads, st.cacheAccesses⟩ h1 h2).2
    | tup xs =>
      rw [getDictionaries_tup_eq]
      exact ih _
        (loadLoop_cache_inv N loader supported xs
          ⟨[], st.cache, st.diskLoads, st.cacheAccesses⟩ h1 h2).1
        (loadLoop_cache_inv N loader supported xs
          ⟨[], st.cache, st.diskLoads, st.cacheAccesses⟩ h1 h2).2

theorem foldl_guard_filter (supported : List String) :
    ∀ (xs : List String) (acc : List String),
      xs.foldl (fun ks l => if l ∈ supported then pyInsertKey ks l else ks)
          acc =
        (xs.filter (fun l => decide (l ∈ supported))).foldl pyInsertKey acc := by
  intro xs
  induction xs with
  | nil => intro acc; rfl
  | cons x xs ih =>
    intro acc
    by_cases h : x ∈ supported
    · simp [List.foldl_cons, List.filter_cons, h, ih]
    · simp [List.foldl_cons, List.filter_cons, h, ih]

theorem mem_foldl_pyInsertKey (k : String) :
    ∀ (xs acc : List String),
      k ∈ xs.foldl pyInsertKey acc ↔ k ∈ acc ∨ k ∈ xs := by
  intro xs
  induction xs with
  | nil => intro acc; simp
  | cons x xs ih =>
    intro acc
    rw [List.foldl_cons, ih]
    unfold pyInsertKey
    by_cases h : x ∈ acc
    · rw [if_pos h]
      constructor
      · rintro (hk | hk)
        · exact Or.inl hk
        · exact Or.inr (List.mem_cons_of_mem x hk)
      · rintro (hk | hk)
        · exact Or.inl hk
        · rcases List.mem_cons.mp hk with hk | hk
          · exact Or.inl (hk ▸ h)
          · exact Or.inr hk
    · rw [if_neg h]
      simp only [List.mem_append, List.mem_singleton, List.mem_cons]
      tauto

/-! ## Claims about the dictionary factory -/

/-- The dictionary the demonstration loader returns for every language. -/
def demoDict : Dict := [("running", "run")]

/-- A concrete loader used for closed evaluations of the factory. -/
def demoLoader : String → Dict := fun _ => demoDict

/-- C1 evidence: the fast-path comparison
`tuple(sorted(self._data.keys())) == sorted(langs)` compares a tuple with a
list, which is never true in Python, so two successive identical requests
both take the slow path: the second call consults the cached loader again
(`cacheAccesses` rises from 1 to 2) and rebuilds the working set, although
the underlying disk loader runs only once (`diskLoads = ["en"]`). -/
theorem claim_C1 :
    (∀ xs ys : List String,
      pySeqEq (PySeq.tuple xs) (PySeq.list ys) = false) ∧
    runCalls (some 8) demoLoader (["en"]) initState
        [LangArg.str ("en"), LangArg.str ("en")] =
      ⟨[("en", demoDict)], [("en", demoDict)], ["en"], 2⟩ :=
  ⟨fun _ _ => rfl, by decide⟩

/-- C4: with capacity `N`, after any sequence of `get_dictionaries` calls
the LRU store holds at most `N` entries with pairwise-distinct language
keys; and at a full cache, a request for an uncached language evicts
exactly the least-recently-used entry (the head of the recency order), so
that requesting the evicted language next triggers a fresh disk load. -/
theorem claim_C4 (N : Nat) (loader : String → Dict) (supported : List String) :
    (∀ args : List LangArg,
      (keysOf (runCalls (some N) loader supported initState args).cache).Nodup ∧
        (runCalls (some N) loader supported initState args).cache.length ≤ N) ∧
    (∀ (st : FactoryState) (k hk : String),
      0 < N → st.cache.length = N → (keysOf st.cache).Nodup →
      ¬ k ∈ keysOf st.cache → (keysOf st.cache).head? = some hk →
      keysOf (lruGet (some N) loader st k).2.cache =
          (keysOf st.cache).drop 1 ++ [k] ∧
        ¬ hk ∈ keysOf (lruGet (some N) loader st k).2.cache ∧
        (lruGet (some N) loader
            (lruGet (some N) loader st k).2 hk).2.diskLoads =
          (lruGet (some N) loader st k).2.diskLoads ++ [hk]) := by
  constructor
  · intro args
    exact runCalls_cache_inv N loader supported args initState
      List.nodup_nil (Nat.zero_le N)
  · intro st k hk hN hfull hnd hmiss hhead
    have hf : st.cache.find? (fun p => p.1 == k) = none :=
      find?_key_eq_none.mpr hmiss
    have hkeys1 : keysOf (lruGet (some N) loader st k).2.cache =
        (keysOf st.cache).drop 1 ++ [k] := by
      simp only [lruGet, hf, if_neg (Nat.pos_iff_ne_zero.mp hN), if_pos hfull,
        keysOf, List.map_append, List.map_drop]
      rfl
    have hstruct : ∃ tl, keysOf st.cache = hk :: tl := by
      cases hks : keysOf st.cache with
      | nil => rw [hks] at hhead; cases hhead
      | cons a tl =>
        rw [hks] at hhead
        refine ⟨tl, ?_⟩
        rw [show a = hk from by simpa using hhead]
    obtain ⟨tl, htl⟩ := hstruct
    have hkn : ¬ hk ∈ (keysOf st.cache).drop 1 ++ [k] := by
      rw [htl, List.drop_one, List.tail_cons]
      intro hc
      rcases List.mem_append.mp hc with hc | hc
      · have hnd' : (hk :: tl).Nodup := htl ▸ hnd
        exact (List.nodup_cons.mp hnd').1 hc
      · rw [List.mem_singleton.mp hc] at htl
        exact hmiss (by rw [htl]; exact List.mem_cons_self k tl)
    refine ⟨hkeys1, by rw [hkeys1]; exact hkn, ?_⟩
    have hf2 : (lruGet (some N) loader st k).2.cache.find?
        (fun p => p.1 == hk) = none :=
      find?_key_eq_none.mpr (by rw [hkeys1]; exact hkn)
    exact lruGet_miss_diskLoads (some N) loader _ hk hf2

/-- The LRU demonstration state: a full two-entry cache, `aa` least
recently used. -/
def witState : FactoryState := ⟨[], [("aa", []), ("bb", [])], [], 0⟩

/-- A loader for closed LRU evaluations. -/
def witLoader : String → Dict := fun _ => []

/-- Witness for C4: with capacity 2 and cached `aa`, `bb`, loading `cc`
evicts exactly `aa`, and the following access to `aa` hits the disk. -/
theorem claim_C4_witness :
    keysOf (lruGet (some 2) witLoader witState ("cc")).2.cache =
        (keysOf witState.cache).drop 1 ++ ["cc"] ∧
      ¬ ("aa") ∈ keysOf (lruGet (some 2) witLoader witState ("cc")).2.cache ∧
      (lruGet (some 2) witLoader
          (lruGet (some 2) witLoader witState ("cc")).2 ("aa")).2.diskLoads =
        (lruGet (some 2) witLoader witState ("cc")).2.diskLoads ++ ["aa"] :=
  (claim_C4 2 witLoader ["aa", "bb", "cc"]).2 witState ("cc") ("aa")
    (by decide) (by decide) (by decide) (by decide) (by decide)

/-- C5: a request mixing supported and unsupported language codes never
raises; the returned working set is keyed by exactly the supported subset
of the request, in request order with unsupported (and duplicate) entries
omitted. -/
theorem claim_C5 (cm : Option Nat) (loader : String → Dict)
    (supported : List String) (st : FactoryState) (langs : List String) :
    ∃ st' : FactoryState,
      getDictionaries cm loader supported st (LangArg.tup langs) =
        Except.ok (st'.data, st') ∧
      keysOf st'.data =
        (langs.filter (fun l => decide (l ∈ supported))).foldl pyInsertKey [] ∧
      (∀ k, k ∈ keysOf st'.data ↔ (k ∈ langs ∧ k ∈ supported)) := by
  refine ⟨_, getDictionaries_tup_eq cm loader supported st langs, ?_, ?_⟩
  · rw [loadLoop_data_keys]
    exact foldl_guard_filter supported langs []
  · intro k
    rw [loadLoop_data_keys, foldl_guard_filter, mem_foldl_pyInsertKey]
    simp [List.mem_filter, keysOf]

/-- C6: a non-string non-tuple `langs` argument raises `TypeError` with the
factory state untouched (no loader call, no disk read, working set intact);
a single string is handled exactly like the one-element tuple. -/
theorem claim_C6 (cm : Option Nat) (loader : String → Dict)
    (supported : List String) (st : FactoryState) :
    getDictionaries cm loader supported st LangArg.other = Except.error () ∧
    runCalls cm loader supported st [LangArg.other] = st ∧
    (∀ s : String, getDictionaries cm loader supported st (LangArg.str s) =
      getDictionaries cm loader supported st (LangArg.tup [s])) :=
  ⟨rfl, rfl, fun _ => rfl⟩

/-- C7: the loader reads the fixed per-language resource, fails with the
resource error when the file is missing or corrupt, fails the mapping
assertion on a non-dict payload, and only returns dictionaries the resource
actually deserializes to; no error is caught inside. -/
theorem claim_C7 (fs : String → FileContent) (lang : String) :
    (fs ("data/" ++ lang ++ ".plzma") = FileContent.missing →
      loadDictionaryFromDisk fs lang = Except.error LoadError.fileNotFound) ∧
    (fs ("data/" ++ lang ++ ".plzma") = FileContent.corrupt →
      loadDictionaryFromDisk fs lang = Except.error LoadError.corruptData) ∧
    (fs ("data/" ++ lang ++ ".plzma") = FileContent.valid PickleVal.nonDict →
      loadDictionaryFromDisk fs lang =
        Except.error LoadError.assertionFailed) ∧
    (∀ d : Dict, loadDictionaryFromDisk fs lang = Except.ok d →
      fs ("data/" ++ lang ++ ".plzma") = FileContent.valid (PickleVal.dict d)) := by
  refine ⟨?_, ?_, ?_, ?_⟩ <;>
    simp only [loadDictionaryFromDisk]
  · intro h; rw [h]
  · intro h; rw [h]
  · intro h; rw [h]
  · intro d h
    cases hfs : fs ("data/" ++ lang ++ ".plzma") with
    | missing => rw [hfs] at h; cases h
    | corrupt => rw [hfs] at h; cases h
    | valid v =>
      cases v with
      | dict d' =>
        rw [hfs] at h
        have h' : d' = d := by
          injection h
        rw [h']
      | nonDict => rw [hfs] at h; cases h

/-- Witness for C7: a missing and a corrupt resource at a concrete
language code. -/
theorem claim_C7_witness :
    loadDictionaryFromDisk (fun _ => FileContent.missing) ("en") =
        Except.error LoadError.fileNotFound ∧
      loadDictionaryFromDisk (fun _ => FileContent.corrupt) ("en") =
        Except.error LoadError.corruptData :=
  ⟨(claim_C7 (fun _ => FileContent.missing) ("en")).1 rfl,
    (claim_C7 (fun _ => FileContent.corrupt) ("en")).2.1 rfl⟩

/-- C9: requesting the empty tuple succeeds on every factory state: it
returns the empty mapping, resets the working set to empty, and leaves the
LRU cache, the disk-load trace and the cached-loader call count untouched. -/
theorem claim_C9 (cm : Option Nat) (loader : String → Dict)
    (supported : List String) (st : FactoryState) :
    getDictionaries cm loader supported st (LangArg.tup []) =
      Except.ok ([], ⟨[], st.cache, st.diskLoads, st.cacheAccesses⟩) := by
  rw [getDictionaries_tup_eq]
  rfl

end Simplemma
